import Mathlib

/-!
Shallow embedding of the `Game2048Logic` class of `2048.py` and proofs of the
specification's claims about it.  The board is a square grid of naturals with
`0` marking an empty cell; randomness (cell choice and tile value of a spawn)
is made explicit as parameters.
-/

namespace G2048

/-- A square game board: an `n × n` grid of natural numbers, `0` meaning an
empty cell.  Mirrors the numpy array `self.board` of `Game2048Logic`. -/
abbrev Board (n : Nat) := Fin n → Fin n → Nat

variable {n : Nat}

/-- Values of the non-zero cells of a row, in order: these are the values the
compress loop copies into `new_board`, consecutively from the left. -/
def compressRowVals (r : List Nat) : List Nat := r.filter fun x => decide (x ≠ 0)

/-- The `moved` flag of the compress loop: scanning the cell at index `j` and
placing non-zero cells at index `position`, it becomes true when a non-zero
cell lands at a position different from its original index. -/
def compressRowMoved : List Nat → Nat → Nat → Bool
  | [], _, _ => false
  | x :: xs, j, pos =>
    if x ≠ 0 then (decide (pos ≠ j) || compressRowMoved xs (j + 1) (pos + 1))
    else compressRowMoved xs (j + 1) pos

/-- One row of `Game2048Logic.compress`: slide the non-zero cells to the left,
pad with the zeros of `new_board`, and report whether any cell moved. -/
def compressRow (r : List Nat) : List Nat × Bool :=
  (compressRowVals r ++ List.replicate (r.length - (compressRowVals r).length) 0,
   compressRowMoved r 0 0)

/-- The in-place merge loop on one row: `x` is the current value of cell `j`
(earlier iterations may have zeroed it), the list holds the cells from `j + 1`
on, which no earlier iteration has touched.  When
`board[i][j] == board[i][j+1] and board[i][j] != 0` the cell `j` is doubled and
cell `j + 1` zeroed, which the recursive call continuing from `0` records. -/
def mergeGo (x : Nat) : List Nat → List Nat × Bool
  | [] => ([x], false)
  | y :: rest =>
    if x = y ∧ x ≠ 0 then ((2 * x) :: (mergeGo 0 rest).1, true)
    else
      let r := mergeGo y rest
      (x :: r.1, r.2)

/-- One row of `Game2048Logic.merge`. -/
def mergeRow : List Nat → List Nat × Bool
  | [] => ([], false)
  | x :: xs => mergeGo x xs

/-- Row `i` of the board as a list. -/
def getRow (b : Board n) (i : Fin n) : List Nat := List.ofFn (b i)

/-- Rebuild a board from per-row lists; cells beyond a list's length are `0`,
matching the zero-filled `new_board` the source copies into. -/
def rowsToBoard (rows : Fin n → List Nat) : Board n := fun i j => (rows i).getD j 0

/-- `Game2048Logic.compress`: per-row left slide; the returned flag is true
when any row reported a move. -/
def compress (b : Board n) : Board n × Bool :=
  (rowsToBoard fun i => (compressRow (getRow b i)).1,
   (List.finRange n).any fun i => (compressRow (getRow b i)).2)

/-- `Game2048Logic.merge`: per-row single-pass merge; the returned flag is true
when any row merged. -/
def merge (b : Board n) : Board n × Bool :=
  (rowsToBoard fun i => (mergeRow (getRow b i)).1,
   (List.finRange n).any fun i => (mergeRow (getRow b i)).2)

/-- `Game2048Logic.reverse` (`np.fliplr`): reverse every row. -/
def reverse (b : Board n) : Board n := fun i j => b i j.rev

/-- `Game2048Logic.transpose` (`self.board.T`). -/
def transpose (b : Board n) : Board n := fun i j => b j i

/-- All cells in row-major order, the order `np.where` reports them in. -/
def allCells (n : Nat) : List (Fin n × Fin n) :=
  (List.finRange n).product (List.finRange n)

/-- The empty cells of the board, row-major. -/
def emptyCells (b : Board n) : List (Fin n × Fin n) :=
  (allCells n).filter fun c => decide (b c.1 c.2 = 0)

/-- `Game2048Logic.add_new_tile`, with the randomness made explicit: `k`
selects the empty cell (`random.choice`) and `four` tells whether the new tile
is a `4` (the probability-0.1 draw) or a `2`.  With no empty cell, a no-op. -/
def add_new_tile (b : Board n) (k : Nat) (four : Bool) : Board n :=
  match emptyCells b with
  | [] => b
  | c :: cs =>
    let cell := (c :: cs).getD (k % (c :: cs).length) c
    fun i j => if (i, j) = cell then (if four then 4 else 2) else b i j

/-- `Game2048Logic.move_left`: compress, merge, compress again after a merge,
spawn a tile when the board changed, and return the changed flag. -/
def move_left (b : Board n) (k : Nat) (four : Bool) : Board n × Bool :=
  let r1 := compress b
  let r2 := merge r1.1
  let b2 := if r2.2 then (compress r2.1).1 else r2.1
  (if r1.2 || r2.2 then add_new_tile b2 k four else b2, r1.2 || r2.2)

/-- `Game2048Logic.move_right`: reverse, move left, reverse back. -/
def move_right (b : Board n) (k : Nat) (four : Bool) : Board n × Bool :=
  let r := move_left (reverse b) k four
  (reverse r.1, r.2)

/-- `Game2048Logic.move_up`: transpose, move left, transpose back. -/
def move_up (b : Board n) (k : Nat) (four : Bool) : Board n × Bool :=
  let r := move_left (transpose b) k four
  (transpose r.1, r.2)

/-- `Game2048Logic.move_down`: transpose, move right, transpose back. -/
def move_down (b : Board n) (k : Nat) (four : Bool) : Board n × Bool :=
  let r := move_right (transpose b) k four
  (transpose r.1, r.2)

/-- The four move directions of the game. -/
inductive Direction where
  | left
  | right
  | up
  | down

/-- Dispatch to the directional move methods. -/
def move (d : Direction) (b : Board n) (k : Nat) (four : Bool) : Board n × Bool :=
  match d with
  | .left => move_left b k four
  | .right => move_right b k four
  | .up => move_up b k four
  | .down => move_down b k four

/-- `Game2048Logic.__init__` on an `n × n` grid: zero board, then two tile
spawns, their random draws made explicit. -/
def init (n k1 : Nat) (f1 : Bool) (k2 : Nat) (f2 : Bool) : Board n :=
  add_new_tile (add_new_tile (fun _ _ => 0) k1 f1) k2 f2

/-- The adjacent index pairs `(j, j + 1)` scanned by the loops of
`check_game_over` (`j` in `range(size - 1)`). -/
def adjPairs (n : Nat) : List (Fin n × Fin n) :=
  (List.finRange n).filterMap fun j =>
    if h : j.val + 1 < n then some (j, ⟨j.val + 1, h⟩) else none

/-- `Game2048Logic.check_game_over`, in state-passing form: the board travels
with the result, and since the method performs no write every exit returns it
untouched.  First the empty-cell scan, then the row and column adjacency scan
(`board[i][j] == board[i][j+1] or board[j][i] == board[j+1][i]`). -/
def check_game_over (b : Board n) : Bool × Board n :=
  if (allCells n).any (fun c => decide (b c.1 c.2 = 0)) then (false, b)
  else if (List.finRange n).any (fun i => (adjPairs n).any fun p =>
      decide (b i p.1 = b i p.2) || decide (b p.1 i = b p.2 i)) then (false, b)
  else (true, b)

/-- `move_left` without the tile spawn: the deterministic
compress-merge-compress pipeline that precedes the spawn. -/
def move_left_ns (b : Board n) : Board n × Bool :=
  let r1 := compress b
  let r2 := merge r1.1
  (if r2.2 then (compress r2.1).1 else r2.1, r1.2 || r2.2)

/-- The directional moves without the tile spawn. -/
def move_ns (d : Direction) (b : Board n) : Board n × Bool :=
  match d with
  | .left => move_left_ns b
  | .right => let r := move_left_ns (reverse b); (reverse r.1, r.2)
  | .up => let r := move_left_ns (transpose b); (transpose r.1, r.2)
  | .down =>
    let r := move_left_ns (reverse (transpose b))
    (transpose (reverse r.1), r.2)

/-- The orientation of the board that each direction feeds into `move_left`. -/
def orient (d : Direction) (b : Board n) : Board n :=
  match d with
  | .left => b
  | .right => reverse b
  | .up => transpose b
  | .down => reverse (transpose b)

/-- Sum of all cell values of the board. -/
def boardSum (b : Board n) : Nat := ∑ i, ∑ j, b i j

/-- Between `pre` and `post` exactly one cell changed, from empty to the
freshly spawned value `v`: a tile spawn and nothing else. -/
def SpawnDiff (pre post : Board n) (v : Nat) : Prop :=
  ∃ c : Fin n × Fin n, pre c.1 c.2 = 0 ∧ post c.1 c.2 = v ∧
    ∀ d : Fin n × Fin n, d ≠ c → post d.1 d.2 = pre d.1 d.2

/-- Number of non-zero cells (tiles) on the board. -/
def nonzeroCount (b : Board n) : Nat :=
  (Finset.univ.filter fun c : Fin n × Fin n => b c.1 c.2 ≠ 0).card

/-- The value invariant: every non-zero cell holds a power of two of at
least `2`. -/
def Inv (b : Board n) : Prop :=
  ∀ i j : Fin n, b i j ≠ 0 → ∃ k, 1 ≤ k ∧ b i j = 2 ^ k

/-- Modelled from the claim's wording, single-pass merge of one row: scan left
to right; on an adjacent equal non-zero pair double the left cell, zero the
right cell, and continue past them, so the freshly doubled cell is never
merged again with its next neighbour in the same pass. -/
def singlePassMerge : List Nat → List Nat
  | x :: y :: rest =>
    if x = y ∧ x ≠ 0 then (2 * x) :: 0 :: singlePassMerge rest
    else x :: singlePassMerge (y :: rest)
  | l => l

/-- A zero cell never merges, so the scan just walks past it. -/
theorem singlePassMerge_zero_cons (l : List Nat) :
    singlePassMerge (0 :: l) = 0 :: singlePassMerge l := by
  cases l with
  | nil => rfl
  | cons z rest => simp [singlePassMerge]

/-- The merge loop computes exactly the single-pass merge of the row. -/
theorem mergeGo_eq_singlePass (l : List Nat) :
    ∀ x, (mergeGo x l).1 = singlePassMerge (x :: l) := by
  induction l with
  | nil => intro x; rfl
  | cons y rest ih =>
    intro x
    by_cases h : x = y ∧ x ≠ 0
    · simp only [mergeGo, if_pos h, singlePassMerge, ih 0, singlePassMerge_zero_cons]
    · simp only [mergeGo, if_neg h, singlePassMerge, ih y, if_neg h]

/-- The 4 × 4 board with every cell `2`: each row is `[2, 2, 2, 2]`. -/
def twosBoard : Board 4 := fun _ _ => 2

/-- The 4 × 4 board with every row `[4, 4, 0, 0]`. -/
def fourFourBoard : Board 4 := fun _ j => if j.val < 2 then 4 else 0

/-- The 4 × 4 board with every row `[8, 0, 0, 0]`. -/
def eightBoard : Board 4 := fun _ j => if j.val = 0 then 8 else 0

example : (mergeRow [2, 2, 2, 2]).1 = [4, 0, 4, 0] := by decide
example : (mergeRow [2, 2, 4, 4]).1 = [4, 0, 8, 0] := by decide
example : (compressRow [4, 0, 4, 0]).1 = [4, 4, 0, 0] := by decide
example : (compressRow [0, 2, 0, 0]).2 = true := by decide
example : (compressRow [2, 2, 0, 0]).2 = false := by decide
example : (move_left_ns twosBoard).1 = fourFourBoard := by decide
example : (move_left_ns twosBoard).1 ≠ eightBoard := by decide

/-- Compressing a row keeps its length. -/
theorem compressRow_length (r : List Nat) : (compressRow r).1.length = r.length := by
  simp only [compressRow, List.length_append, List.length_replicate]
  exact Nat.add_sub_cancel' (List.length_filter_le _ _)

/-- The merge loop's output row has one cell per input cell. -/
theorem mergeGo_length (l : List Nat) : ∀ x, (mergeGo x l).1.length = l.length + 1 := by
  induction l with
  | nil => intro x; rfl
  | cons y rest ih =>
    intro x
    by_cases h : x = y ∧ x ≠ 0
    · simp [mergeGo, if_pos h, ih]
    · simp [mergeGo, if_neg h, ih]

/-- Merging a row keeps its length. -/
theorem mergeRow_length (r : List Nat) : (mergeRow r).1.length = r.length := by
  cases r with
  | nil => rfl
  | cons x xs => exact mergeGo_length xs x

/-- Reading a cell back out of a row list. -/
theorem getD_ofFn (f : Fin n → Nat) (j : Fin n) :
    (List.ofFn f).getD (j : Nat) 0 = f j := by
  have h : (j : Nat) < (List.ofFn f).length := by
    rw [List.length_ofFn]; exact j.isLt
  rw [List.getD_eq_getElem _ _ h, List.getElem_ofFn, Fin.eta]

/-- The length of every extracted row is the board size. -/
theorem getRow_length (b : Board n) (i : Fin n) : (getRow b i).length = n :=
  List.length_ofFn _

/-- Rebuilt boards read back their row lists when those have full length. -/
theorem getRow_rowsToBoard (rows : Fin n → List Nat) (h : ∀ i, (rows i).length = n)
    (i : Fin n) : getRow (rowsToBoard rows) i = rows i := by
  apply List.ext_getElem
  · rw [getRow, List.length_ofFn, h i]
  · intro m h1 h2
    simp only [getRow] at h1 ⊢
    rw [List.getElem_ofFn]
    show (rows i).getD ((⟨m, by simpa using h1⟩ : Fin n) : Nat) 0 = (rows i)[m]
    exact List.getD_eq_getElem _ _ h2

/-- Rows of the compressed board are the compressed rows. -/
theorem getRow_compress (b : Board n) (i : Fin n) :
    getRow (compress b).1 i = (compressRow (getRow b i)).1 :=
  getRow_rowsToBoard _ (fun i' => by rw [compressRow_length, getRow_length]) i

/-- Rows of the merged board are the merged rows. -/
theorem getRow_merge (b : Board n) (i : Fin n) :
    getRow (merge b).1 i = (mergeRow (getRow b i)).1 :=
  getRow_rowsToBoard _ (fun i' => by rw [mergeRow_length, getRow_length]) i

/-- When `moved` stayed false while the placing position trails the scan, all
remaining cells are zero (a non-zero cell would land at a moved position). -/
theorem compressRowMoved_false_all_zero (r : List Nat) :
    ∀ j pos : Nat, compressRowMoved r j pos = false → pos < j → ∀ x ∈ r, x = 0 := by
  induction r with
  | nil =>
    intro j pos _ _ x hx
    cases hx
  | cons y ys ih =>
    intro j pos h hlt x hx
    rw [compressRowMoved] at h
    by_cases hy : y ≠ 0
    · rw [if_pos hy] at h
      rcases Bool.or_eq_false_iff.mp h with ⟨h1, -⟩
      simp only [decide_eq_false_iff_not, not_not] at h1
      omega
    · rw [if_neg hy] at h
      rcases List.mem_cons.mp hx with rfl | hx2
      · exact not_not.mp hy
      · exact ih (j + 1) pos h (Nat.lt_succ_of_lt hlt) x hx2

/-- A row whose compress pass reports no move is already left-compacted: the
copied non-zero cells plus the zero padding reproduce it. -/
theorem compress_vals_pad_eq_self (r : List Nat) :
    ∀ j : Nat, compressRowMoved r j j = false →
      compressRowVals r ++ List.replicate (r.length - (compressRowVals r).length) 0 = r := by
  induction r with
  | nil =>
    intro _ _
    rfl
  | cons y ys ih =>
    intro j h
    rw [compressRowMoved] at h
    by_cases hy : y ≠ 0
    · rw [if_pos hy] at h
      rcases Bool.or_eq_false_iff.mp h with ⟨-, h2⟩
      have hvals : compressRowVals (y :: ys) = y :: compressRowVals ys :=
        List.filter_cons_of_pos (decide_eq_true hy)
      rw [hvals]
      simp only [List.cons_append, List.length_cons, Nat.succ_sub_succ]
      rw [ih (j + 1) h2]
    · rw [if_neg hy] at h
      have hall : ∀ x ∈ y :: ys, x = 0 := by
        intro x hx
        rcases List.mem_cons.mp hx with rfl | hx2
        · exact not_not.mp hy
        · exact compressRowMoved_false_all_zero ys (j + 1) j h (Nat.lt_succ_self j) x hx2
      have hvals : compressRowVals (y :: ys) = [] := by
        apply List.filter_eq_nil_iff.mpr
        intro a ha
        simp [hall a ha]
      rw [hvals]
      simp only [List.nil_append, List.length_nil, Nat.sub_zero]
      exact (List.eq_replicate_iff.mpr ⟨rfl, hall⟩).symm

/-- A row the compress pass did not move is returned unchanged. -/
theorem compressRow_eq_self (r : List Nat) (h : (compressRow r).2 = false) :
    (compressRow r).1 = r :=
  compress_vals_pad_eq_self r 0 h

/-- A row segment the merge loop did not merge is returned unchanged. -/
theorem mergeGo_eq_self (l : List Nat) :
    ∀ x, (mergeGo x l).2 = false → (mergeGo x l).1 = x :: l := by
  induction l with
  | nil =>
    intro x _
    rfl
  | cons y rest ih =>
    intro x h
    by_cases hc : x = y ∧ x ≠ 0
    · rw [mergeGo, if_pos hc] at h
      simp at h
    · rw [mergeGo, if_neg hc] at h ⊢
      show x :: (mergeGo y rest).1 = x :: y :: rest
      rw [ih y h]

/-- A row the merge pass did not merge is returned unchanged. -/
theorem mergeRow_eq_self (r : List Nat) (h : (mergeRow r).2 = false) :
    (mergeRow r).1 = r := by
  cases r with
  | nil => rfl
  | cons x xs => exact mergeGo_eq_self xs x h

/-- When `compress` reports no move, the board is unchanged. -/
theorem compress_eq_self (b : Board n) (h : (compress b).2 = false) :
    (compress b).1 = b := by
  funext i j
  have hrow : (compressRow (getRow b i)).2 = false := by
    have hall := List.any_eq_false.mp h
    simpa using hall i (List.mem_finRange i)
  show ((compressRow (getRow b i)).1).getD (j : Nat) 0 = b i j
  rw [compressRow_eq_self _ hrow]
  exact getD_ofFn (b i) j

/-- When `merge` reports no merge, the board is unchanged. -/
theorem merge_eq_self (b : Board n) (h : (merge b).2 = false) :
    (merge b).1 = b := by
  funext i j
  have hrow : (mergeRow (getRow b i)).2 = false := by
    have hall := List.any_eq_false.mp h
    simpa using hall i (List.mem_finRange i)
  show ((mergeRow (getRow b i)).1).getD (j : Nat) 0 = b i j
  rw [mergeRow_eq_self _ hrow]
  exact getD_ofFn (b i) j

/-- Reversing the rows twice restores the board. -/
theorem reverse_reverse (b : Board n) : reverse (reverse b) = b := by
  funext i j
  simp [reverse, Fin.rev_rev]

/-- Transposing twice restores the board. -/
theorem transpose_transpose (b : Board n) : transpose (transpose b) = b := rfl

/-- `move_left` is the no-spawn pipeline followed by a conditional spawn. -/
theorem move_left_eq_ns (b : Board n) (k : Nat) (four : Bool) :
    move_left b k four =
      (if (move_left_ns b).2 then add_new_tile (move_left_ns b).1 k four
       else (move_left_ns b).1, (move_left_ns b).2) := rfl

/-- When the no-spawn pipeline reports no change, it left the board alone. -/
theorem move_left_ns_eq_self (b : Board n) (h : (move_left_ns b).2 = false) :
    (move_left_ns b).1 = b := by
  have h' : ((compress b).2 || (merge (compress b).1).2) = false := h
  rcases Bool.or_eq_false_iff.mp h' with ⟨h1, h2⟩
  show (if (merge (compress b).1).2 = true then (compress (merge (compress b).1).1).1
       else (merge (compress b).1).1) = b
  rw [h2]
  simp only [Bool.false_eq_true, if_false]
  rw [merge_eq_self _ h2, compress_eq_self _ h1]

/-- When `move_left` reports no change, the board is untouched (no spawn). -/
theorem move_left_noop (b : Board n) (k : Nat) (four : Bool)
    (h : (move_left b k four).2 = false) : (move_left b k four).1 = b := by
  have hns : (move_left_ns b).2 = false := h
  calc (move_left b k four).1
      = (if (move_left_ns b).2 = true then add_new_tile (move_left_ns b).1 k four
         else (move_left_ns b).1) := rfl
    _ = (move_left_ns b).1 := by rw [hns]; simp
    _ = b := move_left_ns_eq_self b hns

/-- C6: for every direction, a move that returns `changed = false` leaves the
board identical cell for cell and spawns no tile. -/
theorem c6_unchanged_move_is_noop (d : Direction) (b : Board n) (k : Nat) (four : Bool)
    (h : (move d b k four).2 = false) : (move d b k four).1 = b := by
  cases d with
  | left => exact move_left_noop b k four h
  | right =>
    show reverse (move_left (reverse b) k four).1 = b
    rw [move_left_noop (reverse b) k four h]
    exact reverse_reverse b
  | up =>
    show transpose (move_left (transpose b) k four).1 = b
    rw [move_left_noop (transpose b) k four h]
    exact transpose_transpose b
  | down =>
    show transpose (reverse (move_left (reverse (transpose b)) k four).1) = b
    rw [move_left_noop (reverse (transpose b)) k four h, reverse_reverse]
    exact transpose_transpose b

/-- A full 4 × 4 board of alternating 2s and 4s: no move can change it. -/
def checkerBoard : Board 4 := fun i j => if (i.val + j.val) % 2 = 0 then 2 else 4

/-- Witness for C6 at a concrete stuck board. -/
theorem c6_unchanged_move_is_noop_witness :
    (move .left checkerBoard 0 false).2 = false ∧
      (move .left checkerBoard 0 false).1 = checkerBoard :=
  ⟨by decide, c6_unchanged_move_is_noop .left checkerBoard 0 false (by decide)⟩

/-- Every cell is in the row-major cell list. -/
theorem mem_allCells (c : Fin n × Fin n) : c ∈ allCells n := by
  cases c with
  | mk i j => exact List.mem_product.mpr ⟨List.mem_finRange i, List.mem_finRange j⟩

/-- Membership in the empty-cell list is exactly cell emptiness. -/
theorem mem_emptyCells_iff (b : Board n) (c : Fin n × Fin n) :
    c ∈ emptyCells b ↔ b c.1 c.2 = 0 := by
  simp [emptyCells, List.mem_filter, mem_allCells]

/-- An empty cell keeps the empty-cell list non-nil. -/
theorem emptyCells_ne_nil (b : Board n) (i j : Fin n) (h : b i j = 0) :
    emptyCells b ≠ [] := by
  intro hnil
  have hmem : (i, j) ∈ emptyCells b := (mem_emptyCells_iff b (i, j)).mpr h
  rw [hnil] at hmem
  cases hmem

/-- A row containing a zero loses it under the filter of kept values. -/
theorem compressRowVals_length_lt :
    ∀ r : List Nat, (0 : Nat) ∈ r → (compressRowVals r).length < r.length := by
  intro r
  induction r with
  | nil =>
    intro h
    cases h
  | cons y ys ih =>
    intro h
    by_cases hy : y = 0
    · subst hy
      have hv : compressRowVals (0 :: ys) = compressRowVals ys := by
        simp [compressRowVals]
      rw [hv, List.length_cons]
      exact Nat.lt_succ_of_le (List.length_filter_le _ _)
    · have h0 : (0 : Nat) ∈ ys := by
        rcases List.mem_cons.mp h with h1 | h1
        · exact absurd h1.symm hy
        · exact h1
      have hv : compressRowVals (y :: ys) = y :: compressRowVals ys :=
        List.filter_cons_of_pos (decide_eq_true hy)
      rw [hv, List.length_cons, List.length_cons]
      exact Nat.succ_lt_succ (ih h0)

/-- Compressing keeps a zero in the row (as padding, if nowhere else). -/
theorem zero_mem_compressRow (r : List Nat) (h : (0 : Nat) ∈ r) :
    (0 : Nat) ∈ (compressRow r).1 := by
  apply List.mem_append_right
  apply List.mem_replicate.mpr
  have hlt := compressRowVals_length_lt r h
  exact ⟨by omega, rfl⟩

/-- When the compress pass reports a move, the row had an empty cell. -/
theorem compressRowMoved_true_zero_mem (r : List Nat) :
    ∀ j : Nat, compressRowMoved r j j = true → (0 : Nat) ∈ r := by
  induction r with
  | nil =>
    intro j h
    cases h
  | cons y ys ih =>
    intro j h
    rw [compressRowMoved] at h
    by_cases hy : y ≠ 0
    · rw [if_pos hy] at h
      have h2 : compressRowMoved ys (j + 1) (j + 1) = true := by simpa using h
      exact List.mem_cons_of_mem y (ih (j + 1) h2)
    · simp [not_not.mp hy]

/-- The merge scan continuing from a zeroed cell keeps that zero. -/
theorem zero_mem_mergeGo_zero (l : List Nat) : (0 : Nat) ∈ (mergeGo 0 l).1 := by
  cases l with
  | nil => exact List.mem_cons_self _ _
  | cons y rest =>
    rw [mergeGo, if_neg (by simp)]
    exact List.mem_cons_self _ _

/-- A merge that fired leaves a zero in the output row. -/
theorem zero_mem_mergeGo_of_flag (l : List Nat) :
    ∀ x, (mergeGo x l).2 = true → (0 : Nat) ∈ (mergeGo x l).1 := by
  induction l with
  | nil =>
    intro x h
    cases h
  | cons y rest ih =>
    intro x h
    by_cases hc : x = y ∧ x ≠ 0
    · rw [mergeGo, if_pos hc]
      exact List.mem_cons_of_mem _ (zero_mem_mergeGo_zero rest)
    · rw [mergeGo, if_neg hc] at h ⊢
      show (0 : Nat) ∈ x :: (mergeGo y rest).1
      exact List.mem_cons_of_mem _ (ih y h)

/-- The merge scan never fills an empty cell. -/
theorem zero_mem_mergeGo_of_mem (l : List Nat) :
    ∀ x, (0 : Nat) ∈ x :: l → (0 : Nat) ∈ (mergeGo x l).1 := by
  induction l with
  | nil =>
    intro x h
    exact h
  | cons y rest ih =>
    intro x h
    by_cases hc : x = y ∧ x ≠ 0
    · rw [mergeGo, if_pos hc]
      exact List.mem_cons_of_mem _ (zero_mem_mergeGo_zero rest)
    · rw [mergeGo, if_neg hc]
      show (0 : Nat) ∈ x :: (mergeGo y rest).1
      rcases List.mem_cons.mp h with h0 | h0
      · exact List.mem_cons.mpr (Or.inl h0)
      · exact List.mem_cons_of_mem _ (ih y h0)

/-- Merging keeps any zero the row already has. -/
theorem zero_mem_mergeRow_of_mem (r : List Nat) (h : (0 : Nat) ∈ r) :
    (0 : Nat) ∈ (mergeRow r).1 := by
  cases r with
  | nil => cases h
  | cons x xs => exact zero_mem_mergeGo_of_mem xs x h

/-- A row whose merge pass fired contains a zero afterwards. -/
theorem zero_mem_mergeRow_of_flag (r : List Nat) (h : (mergeRow r).2 = true) :
    (0 : Nat) ∈ (mergeRow r).1 := by
  cases r with
  | nil => cases h
  | cons x xs => exact zero_mem_mergeGo_of_flag xs x h

/-- A zero in a row list is a zero cell of the board. -/
theorem exists_zero_of_mem_getRow (b : Board n) (i : Fin n) (h : (0 : Nat) ∈ getRow b i) :
    ∃ j, b i j = 0 := by
  rcases (List.mem_ofFn _ _).mp h with ⟨j, hj⟩
  exact ⟨j, hj⟩

/-- A changed compress-merge-compress pipeline leaves at least one empty cell:
a moved row had a gap that sliding preserves, and a merge zeroes a cell. -/
theorem move_left_ns_changed_zero (b : Board n) (h : (move_left_ns b).2 = true) :
    ∃ i j : Fin n, (move_left_ns b).1 i j = 0 := by
  have h' : ((compress b).2 || (merge (compress b).1).2) = true := h
  by_cases hm : (merge (compress b).1).2 = true
  · rcases List.any_eq_true.mp hm with ⟨i, -, hrow⟩
    have hz : (0 : Nat) ∈ getRow (merge (compress b).1).1 i := by
      rw [getRow_merge]
      exact zero_mem_mergeRow_of_flag _ hrow
    have heq : (move_left_ns b).1 = (compress (merge (compress b).1).1).1 := by
      show (if (merge (compress b).1).2 = true then _ else _) = _
      rw [if_pos hm]
    rw [heq]
    have hz2 : (0 : Nat) ∈ getRow (compress (merge (compress b).1).1).1 i := by
      rw [getRow_compress]
      exact zero_mem_compressRow _ hz
    rcases exists_zero_of_mem_getRow _ i hz2 with ⟨j, hj⟩
    exact ⟨i, j, hj⟩
  · have hmf : (merge (compress b).1).2 = false := by
      cases hb : (merge (compress b).1).2
      · rfl
      · exact absurd hb hm
    have hc : (compress b).2 = true := by
      simpa [hmf] using h'
    rcases List.any_eq_true.mp hc with ⟨i, -, hrow⟩
    have h0 : (0 : Nat) ∈ getRow b i := compressRowMoved_true_zero_mem _ 0 hrow
    have h1 : (0 : Nat) ∈ getRow (compress b).1 i := by
      rw [getRow_compress]
      exact zero_mem_compressRow _ h0
    have h2 : (0 : Nat) ∈ getRow (merge (compress b).1).1 i := by
      rw [getRow_merge]
      exact zero_mem_mergeRow_of_mem _ h1
    have heq : (move_left_ns b).1 = (merge (compress b).1).1 := by
      show (if (merge (compress b).1).2 = true then _ else _) = _
      rw [hmf]
      simp
    rw [heq]
    rcases exists_zero_of_mem_getRow _ i h2 with ⟨j, hj⟩
    exact ⟨i, j, hj⟩

/-- Unfolding `add_new_tile` when an empty cell exists. -/
theorem add_new_tile_eq (b : Board n) (k : Nat) (four : Bool) (c : Fin n × Fin n)
    (cs : List (Fin n × Fin n)) (hc : emptyCells b = c :: cs) :
    add_new_tile b k four = fun i j =>
      if (i, j) = (c :: cs).getD (k % (c :: cs).length) c then (if four then 4 else 2)
      else b i j := by
  unfold add_new_tile
  rw [hc]

/-- Unfolding `add_new_tile` on a full board: a no-op. -/
theorem add_new_tile_nil (b : Board n) (k : Nat) (four : Bool)
    (hc : emptyCells b = []) : add_new_tile b k four = b := by
  unfold add_new_tile
  rw [hc]

/-- On a board with an empty cell, the spawn fills exactly one empty cell with
the drawn value and leaves every other cell alone. -/
theorem add_new_tile_spawn (b : Board n) (k : Nat) (four : Bool)
    (h : emptyCells b ≠ []) :
    SpawnDiff b (add_new_tile b k four) (if four then 4 else 2) := by
  rcases hc : emptyCells b with - | ⟨c, cs⟩
  · exact absurd hc h
  · have hmod : k % (c :: cs).length < (c :: cs).length := Nat.mod_lt _ (by simp)
    have hmem : (c :: cs).getD (k % (c :: cs).length) c ∈ c :: cs := by
      rw [List.getD_eq_getElem _ _ hmod]
      exact List.getElem_mem _
    have hmem2 : (c :: cs).getD (k % (c :: cs).length) c ∈ emptyCells b := by
      rw [hc]
      exact hmem
    refine ⟨(c :: cs).getD (k % (c :: cs).length) c,
      (mem_emptyCells_iff b _).mp hmem2, ?_, ?_⟩
    · simp only [add_new_tile_eq b k four c cs hc]
      simp
    · intro d hd
      simp only [add_new_tile_eq b k four c cs hc]
      apply if_neg
      intro hdc
      apply hd
      rw [← Prod.mk.eta (p := d), hdc]

/-- A spawn diff survives reversing the rows. -/
theorem spawnDiff_reverse {pre post : Board n} {v : Nat} (h : SpawnDiff pre post v) :
    SpawnDiff (reverse pre) (reverse post) v := by
  rcases h with ⟨c, h0, hv, hf⟩
  refine ⟨(c.1, c.2.rev), ?_, ?_, ?_⟩
  · show pre c.1 c.2.rev.rev = 0
    rw [Fin.rev_rev]
    exact h0
  · show post c.1 c.2.rev.rev = v
    rw [Fin.rev_rev]
    exact hv
  · intro d hd
    show post d.1 d.2.rev = pre d.1 d.2.rev
    refine hf (d.1, d.2.rev) ?_
    intro hdc
    apply hd
    cases hdc
    show d = (d.1, d.2.rev.rev)
    rw [Fin.rev_rev]

/-- A spawn diff survives transposition. -/
theorem spawnDiff_transpose {pre post : Board n} {v : Nat} (h : SpawnDiff pre post v) :
    SpawnDiff (transpose pre) (transpose post) v := by
  rcases h with ⟨c, h0, hv, hf⟩
  refine ⟨(c.2, c.1), h0, hv, ?_⟩
  intro d hd
  show post d.2 d.1 = pre d.2 d.1
  refine hf (d.2, d.1) ?_
  intro hdc
  apply hd
  cases hdc
  show d = (d.1, d.2)
  exact Prod.mk.eta.symm

/-- A changed left move is the no-spawn pipeline plus one tile spawn. -/
theorem move_left_changed_spawn (b : Board n) (k : Nat) (four : Bool)
    (h : (move_left b k four).2 = true) :
    SpawnDiff (move_left_ns b).1 (move_left b k four).1 (if four then 4 else 2) := by
  have hns : (move_left_ns b).2 = true := h
  rcases move_left_ns_changed_zero b hns with ⟨i, j, hz⟩
  have hne := emptyCells_ne_nil _ i j hz
  have hmv : (move_left b k four).1 = add_new_tile (move_left_ns b).1 k four := by
    show (if (move_left_ns b).2 = true then _ else _) = _
    rw [if_pos hns]
    rfl
  rw [hmv]
  exact add_new_tile_spawn _ k four hne

/-- C4: whenever a directional move returns `changed = true`, exactly one new
tile is spawned: exactly one cell that was empty after the slide-and-merge
pipeline becomes the drawn non-zero value, and every other cell is exactly the
pipeline's output (the no-empty-cell no-op branch of the spawn is not taken). -/
theorem c4_changed_move_spawns_one_tile (d : Direction) (b : Board n) (k : Nat)
    (four : Bool) (h : (move d b k four).2 = true) :
    SpawnDiff (move_ns d b).1 (move d b k four).1 (if four then 4 else 2) := by
  cases d with
  | left => exact move_left_changed_spawn b k four h
  | right => exact spawnDiff_reverse (move_left_changed_spawn (reverse b) k four h)
  | up => exact spawnDiff_transpose (move_left_changed_spawn (transpose b) k four h)
  | down =>
    exact spawnDiff_transpose
      (spawnDiff_reverse (move_left_changed_spawn (reverse (transpose b)) k four h))

/-- A 4 × 4 board with one tile off the left wall: a left move changes it. -/
def loneTileBoard : Board 4 := fun i j => if i.val = 0 ∧ j.val = 1 then 2 else 0

/-- Witness for C4 at a concrete changed move. -/
theorem c4_changed_move_spawns_one_tile_witness :
    SpawnDiff (move_ns .left loneTileBoard).1 (move .left loneTileBoard 0 false).1 2 :=
  c4_changed_move_spawns_one_tile .left loneTileBoard 0 false (by decide)

/-- Dropping the zeros of a row does not change its sum. -/
theorem compressRowVals_sum : ∀ r : List Nat, (compressRowVals r).sum = r.sum := by
  intro r
  induction r with
  | nil => rfl
  | cons y ys ih =>
    by_cases hy : y = 0
    · subst hy
      have hv : compressRowVals (0 :: ys) = compressRowVals ys := by
        simp [compressRowVals]
      rw [hv, ih, List.sum_cons, Nat.zero_add]
    · have hv : compressRowVals (y :: ys) = y :: compressRowVals ys :=
        List.filter_cons_of_pos (decide_eq_true hy)
      rw [hv, List.sum_cons, List.sum_cons, ih]

/-- Compressing a row conserves its sum. -/
theorem compressRow_sum (r : List Nat) : (compressRow r).1.sum = r.sum := by
  show (compressRowVals r ++ List.replicate _ 0).sum = r.sum
  rw [List.sum_append, compressRowVals_sum]
  simp

/-- The merge loop conserves the sum: a merge turns `v + v` into `2v + 0`. -/
theorem mergeGo_sum (l : List Nat) : ∀ x, (mergeGo x l).1.sum = x + l.sum := by
  induction l with
  | nil =>
    intro x
    simp [mergeGo]
  | cons y rest ih =>
    intro x
    by_cases hc : x = y ∧ x ≠ 0
    · rw [mergeGo, if_pos hc]
      show ((2 * x) :: (mergeGo 0 rest).1).sum = x + (y :: rest).sum
      rw [List.sum_cons, ih 0, List.sum_cons, ← hc.1]
      omega
    · rw [mergeGo, if_neg hc]
      show (x :: (mergeGo y rest).1).sum = x + (y :: rest).sum
      rw [List.sum_cons, ih y, List.sum_cons]

/-- Merging a row conserves its sum. -/
theorem mergeRow_sum (r : List Nat) : (mergeRow r).1.sum = r.sum := by
  cases r with
  | nil => rfl
  | cons x xs =>
    show (mergeGo x xs).1.sum = (x :: xs).sum
    rw [mergeGo_sum xs x, List.sum_cons]

/-- The board sum is the sum of the row sums. -/
theorem boardSum_eq_sum_rows (b : Board n) : boardSum b = ∑ i, (getRow b i).sum := by
  refine Finset.sum_congr rfl fun i _ => ?_
  rw [getRow, List.sum_ofFn]

/-- The board sum as a sum over cells. -/
theorem boardSum_prod (b : Board n) :
    boardSum b = ∑ c : Fin n × Fin n, b c.1 c.2 := by
  rw [Fintype.sum_prod_type]
  rfl

/-- Compressing the board conserves the sum. -/
theorem boardSum_compress (b : Board n) : boardSum (compress b).1 = boardSum b := by
  rw [boardSum_eq_sum_rows, boardSum_eq_sum_rows]
  refine Finset.sum_congr rfl fun i _ => ?_
  rw [getRow_compress, compressRow_sum]

/-- Merging the board conserves the sum. -/
theorem boardSum_merge (b : Board n) : boardSum (merge b).1 = boardSum b := by
  rw [boardSum_eq_sum_rows, boardSum_eq_sum_rows]
  refine Finset.sum_congr rfl fun i _ => ?_
  rw [getRow_merge, mergeRow_sum]

/-- Reversing the rows conserves the sum. -/
theorem boardSum_reverse (b : Board n) : boardSum (reverse b) = boardSum b := by
  unfold boardSum reverse
  refine Finset.sum_congr rfl fun i _ => ?_
  exact Equiv.sum_comp Fin.revPerm (b i)

/-- Transposing conserves the sum. -/
theorem boardSum_transpose (b : Board n) : boardSum (transpose b) = boardSum b := by
  unfold boardSum transpose
  exact Finset.sum_comm

/-- A spawn on a board with an empty cell adds exactly the drawn value. -/
theorem boardSum_add_new_tile (b : Board n) (k : Nat) (four : Bool)
    (h : emptyCells b ≠ []) :
    boardSum (add_new_tile b k four) = boardSum b + (if four then 4 else 2) := by
  rcases add_new_tile_spawn b k four h with ⟨c, h0, hv, hf⟩
  have hpost := Finset.sum_eq_sum_diff_singleton_add (Finset.mem_univ c)
    (fun d : Fin n × Fin n => (add_new_tile b k four) d.1 d.2)
  have hpre := Finset.sum_eq_sum_diff_singleton_add (Finset.mem_univ c)
    (fun d : Fin n × Fin n => b d.1 d.2)
  have hdiff : (∑ d ∈ Finset.univ \ {c}, (add_new_tile b k four) d.1 d.2)
      = ∑ d ∈ Finset.univ \ {c}, b d.1 d.2 := by
    refine Finset.sum_congr rfl fun d hd => ?_
    have hdc : d ≠ c := by
      rcases Finset.mem_sdiff.mp hd with ⟨-, hnotin⟩
      simpa using hnotin
    exact hf d hdc
  rw [boardSum_prod, boardSum_prod, hpost, hpre, hdiff]
  simp only [hv, h0, Nat.add_zero]

/-- The no-spawn pipeline conserves the sum. -/
theorem boardSum_move_left_ns (b : Board n) :
    boardSum (move_left_ns b).1 = boardSum b := by
  show boardSum (if (merge (compress b).1).2 = true then _ else _) = _
  by_cases hm : (merge (compress b).1).2 = true
  · rw [if_pos hm, boardSum_compress, boardSum_merge, boardSum_compress]
  · rw [if_neg hm, boardSum_merge, boardSum_compress]

/-- A changed left move ends in the spawn applied to the pipeline output. -/
theorem move_left_fst_of_changed (b : Board n) (k : Nat) (four : Bool)
    (h : (move_left_ns b).2 = true) :
    (move_left b k four).1 = add_new_tile (move_left_ns b).1 k four := by
  show (if (move_left_ns b).2 = true then _ else _) = _
  rw [if_pos h]
  rfl

/-- An unchanged left move returns the pipeline output with no spawn. -/
theorem move_left_fst_of_unchanged (b : Board n) (k : Nat) (four : Bool)
    (h : (move_left_ns b).2 = false) :
    (move_left b k four).1 = (move_left_ns b).1 := by
  show (if (move_left_ns b).2 = true then _ else _) = _
  rw [h]
  simp only [Bool.false_eq_true, if_false]
  rfl

/-- Sum accounting for a left move: sliding and merging conserve the sum, and
a changed move then adds exactly the spawned value. -/
theorem boardSum_move_left (b : Board n) (k : Nat) (four : Bool) :
    boardSum (move_left b k four).1 =
      boardSum b + (if (move_left b k four).2 then (if four then 4 else 2) else 0) := by
  by_cases hch : (move_left b k four).2 = true
  · have hns : (move_left_ns b).2 = true := hch
    rcases move_left_ns_changed_zero b hns with ⟨i, j, hz⟩
    rw [move_left_fst_of_changed b k four hns,
      boardSum_add_new_tile _ k four (emptyCells_ne_nil _ i j hz),
      boardSum_move_left_ns, hch]
    simp
  · have hf : (move_left b k four).2 = false := by
      cases hb : (move_left b k four).2
      · rfl
      · exact absurd hb hch
    rw [move_left_fst_of_unchanged b k four hf, boardSum_move_left_ns, hf]
    simp

/-- Modelled from the claim's wording: the amount each merge of two equal
values `v` supposedly adds to the sum, accumulated over the merge scan of one
row segment: `v` per merge performed. -/
def claimedMergeScoreGo (x : Nat) : List Nat → Nat
  | [] => 0
  | y :: rest =>
    if x = y ∧ x ≠ 0 then x + claimedMergeScoreGo 0 rest
    else claimedMergeScoreGo y rest

/-- The claimed per-row merged amount. -/
def claimedRowMergeScore : List Nat → Nat
  | [] => 0
  | x :: xs => claimedMergeScoreGo x xs

/-- The claimed merged amount of a whole move: `v` for each merge of two `v`
cells performed on the board the merge pass runs on (the board after the first
compress, in the move's canonical orientation). -/
def claimedMergedAmount (d : Direction) (b : Board n) : Nat :=
  ∑ i, claimedRowMergeScore (getRow (compress (orient d b)).1 i)

/-- A 4 × 4 board whose first row is `[2, 2, 0, 0]` and the rest zeros. -/
def mergePairBoard : Board 4 := fun i j => if i.val = 0 ∧ j.val < 2 then 2 else 0

/-- Counterexample to C5 as stated: moving `[[2,2,0,0],0,0,0]` left merges the
two 2s and (with the random draws fixed to the first empty cell and a 2 tile)
spawns a 2: the resulting sum is 6, but the claim predicts
`pre-sum + merged amount + spawned value = 4 + 2 + 2 = 8`.  A merge replaces
`v + v` by `2v + 0`, so it adds nothing to the board sum. -/
theorem c5_counterexample_sum :
    (move .left mergePairBoard 0 false).2 = true ∧
    boardSum mergePairBoard = 4 ∧
    claimedMergedAmount .left mergePairBoard = 2 ∧
    boardSum (move .left mergePairBoard 0 false).1 = 6 ∧
    boardSum (move .left mergePairBoard 0 false).1 ≠
      boardSum mergePairBoard + claimedMergedAmount .left mergePairBoard + 2 :=
  ⟨by decide, by decide, by decide, by decide, by decide⟩

/-- C5 (amended): the sum of all cell values after a move equals the pre-move
sum plus the value of the newly spawned tile when the move changed the board
(and plus nothing otherwise); merges leave the sum unchanged, since a merge
replaces two cells holding `v` by one holding `2v` and one holding `0`. -/
theorem c5_sum_conservation (d : Direction) (b : Board n) (k : Nat) (four : Bool) :
    boardSum (move d b k four).1 =
      boardSum b + (if (move d b k four).2 then (if four then 4 else 2) else 0) := by
  cases d with
  | left => exact boardSum_move_left b k four
  | right =>
    show boardSum (reverse (move_left (reverse b) k four).1) = _
    rw [boardSum_reverse, boardSum_move_left (reverse b) k four, boardSum_reverse]
    rfl
  | up =>
    show boardSum (transpose (move_left (transpose b) k four).1) = _
    rw [boardSum_transpose, boardSum_move_left (transpose b) k four, boardSum_transpose]
    rfl
  | down =>
    show boardSum (transpose (reverse (move_left (reverse (transpose b)) k four).1)) = _
    rw [boardSum_transpose, boardSum_reverse,
      boardSum_move_left (reverse (transpose b)) k four, boardSum_reverse, boardSum_transpose]
    rfl

/-- Row-level value invariant: non-zero cells are powers of two of at least 2. -/
def RowInv (l : List Nat) : Prop := ∀ x ∈ l, x ≠ 0 → ∃ m, 1 ≤ m ∧ x = 2 ^ m

/-- Rows of an invariant board satisfy the row invariant. -/
theorem rowInv_getRow {b : Board n} (h : Inv b) (i : Fin n) : RowInv (getRow b i) := by
  intro x hx hx0
  rcases (List.mem_ofFn _ _).mp hx with ⟨j, hj⟩
  subst hj
  exact h i j hx0

/-- A board whose rows all satisfy the row invariant is invariant. -/
theorem inv_of_rows {b : Board n} (h : ∀ i, RowInv (getRow b i)) : Inv b := by
  intro i j hne
  exact h i (b i j) ((List.mem_ofFn _ _).mpr ⟨j, rfl⟩) hne

/-- Compressing keeps the row invariant: cells are kept values or zeros. -/
theorem rowInv_compressRow {r : List Nat} (h : RowInv r) : RowInv (compressRow r).1 := by
  intro x hx hx0
  rcases List.mem_append.mp hx with hm | hm
  · exact h x (List.mem_filter.mp hm).1 hx0
  · exact absurd (List.mem_replicate.mp hm).2 hx0

/-- The merge loop keeps the row invariant: it doubles powers of two. -/
theorem rowInv_mergeGo : ∀ (l : List Nat) (x : Nat), RowInv (x :: l) → RowInv (mergeGo x l).1 := by
  intro l
  induction l with
  | nil =>
    intro x h
    exact h
  | cons y rest ih =>
    intro x h
    by_cases hc : x = y ∧ x ≠ 0
    · rw [mergeGo, if_pos hc]
      intro z hz hz0
      rcases List.mem_cons.mp hz with rfl | hz2
      · rcases h x (List.mem_cons_self _ _) hc.2 with ⟨m, hm1, hm2⟩
        refine ⟨m + 1, by omega, ?_⟩
        rw [hm2, pow_succ]
        ring
      · have hrest : RowInv (0 :: rest) := by
          intro w hw hw0
          rcases List.mem_cons.mp hw with rfl | hw2
          · exact absurd rfl hw0
          · exact h w (List.mem_cons_of_mem _ (List.mem_cons_of_mem _ hw2)) hw0
        exact ih 0 hrest z hz2 hz0
    · rw [mergeGo, if_neg hc]
      show RowInv (x :: (mergeGo y rest).1)
      intro z hz hz0
      rcases List.mem_cons.mp hz with rfl | hz2
      · exact h z (List.mem_cons_self _ _) hz0
      · have hrest : RowInv (y :: rest) := fun w hw hw0 =>
          h w (List.mem_cons_of_mem _ hw) hw0
        exact ih y hrest z hz2 hz0

/-- Merging a row keeps the row invariant. -/
theorem rowInv_mergeRow {r : List Nat} (h : RowInv r) : RowInv (mergeRow r).1 := by
  cases r with
  | nil =>
    intro x hx
    cases hx
  | cons x xs => exact rowInv_mergeGo xs x h

/-- Compressing the board preserves the invariant. -/
theorem inv_compress {b : Board n} (h : Inv b) : Inv (compress b).1 := by
  apply inv_of_rows
  intro i
  rw [getRow_compress]
  exact rowInv_compressRow (rowInv_getRow h i)

/-- Merging the board preserves the invariant. -/
theorem inv_merge {b : Board n} (h : Inv b) : Inv (merge b).1 := by
  apply inv_of_rows
  intro i
  rw [getRow_merge]
  exact rowInv_mergeRow (rowInv_getRow h i)

/-- Reversing the rows preserves the invariant. -/
theorem inv_reverse {b : Board n} (h : Inv b) : Inv (reverse b) := by
  intro i j hne
  exact h i j.rev hne

/-- Transposing preserves the invariant. -/
theorem inv_transpose {b : Board n} (h : Inv b) : Inv (transpose b) := by
  intro i j hne
  exact h j i hne

/-- Spawning a tile preserves the invariant: it writes a 2 or a 4. -/
theorem inv_add_new_tile {b : Board n} (k : Nat) (four : Bool) (h : Inv b) :
    Inv (add_new_tile b k four) := by
  rcases hc : emptyCells b with - | ⟨c, cs⟩
  · rw [add_new_tile_nil b k four hc]
    exact h
  · rw [add_new_tile_eq b k four c cs hc]
    intro i j hne
    by_cases hij : (i, j) = (c :: cs).getD (k % (c :: cs).length) c
    · simp only [if_pos hij]
      cases four
      · exact ⟨1, le_refl 1, rfl⟩
      · exact ⟨2, by omega, rfl⟩
    · simp only [if_neg hij] at hne ⊢
      exact h i j hne

/-- The no-spawn pipeline preserves the invariant. -/
theorem inv_move_left_ns {b : Board n} (h : Inv b) : Inv (move_left_ns b).1 := by
  show Inv (if (merge (compress b).1).2 = true then _ else _)
  by_cases hm : (merge (compress b).1).2 = true
  · rw [if_pos hm]
    exact inv_compress (inv_merge (inv_compress h))
  · rw [if_neg hm]
    exact inv_merge (inv_compress h)

/-- A left move preserves the invariant. -/
theorem inv_move_left {b : Board n} (k : Nat) (four : Bool) (h : Inv b) :
    Inv (move_left b k four).1 := by
  by_cases hch : (move_left_ns b).2 = true
  · rw [move_left_fst_of_changed b k four hch]
    exact inv_add_new_tile k four (inv_move_left_ns h)
  · have hf : (move_left_ns b).2 = false := by
      cases hb : (move_left_ns b).2
      · rfl
      · exact absurd hb hch
    rw [move_left_fst_of_unchanged b k four hf]
    exact inv_move_left_ns h

/-- C7: every operation of the engine preserves the invariant that non-zero
cells hold powers of two of at least 2: construction, tile spawn, compress,
merge, reverse, transpose, and every directional move. -/
theorem c7_power_of_two_invariant (n : Nat) :
    (∀ (k1 : Nat) (f1 : Bool) (k2 : Nat) (f2 : Bool), Inv (init n k1 f1 k2 f2)) ∧
    (∀ (b : Board n) (k : Nat) (four : Bool), Inv b → Inv (add_new_tile b k four)) ∧
    (∀ b : Board n, Inv b → Inv (compress b).1) ∧
    (∀ b : Board n, Inv b → Inv (merge b).1) ∧
    (∀ b : Board n, Inv b → Inv (reverse b)) ∧
    (∀ b : Board n, Inv b → Inv (transpose b)) ∧
    (∀ (d : Direction) (b : Board n) (k : Nat) (four : Bool),
      Inv b → Inv (move d b k four).1) := by
  have hzero : Inv (fun _ _ => 0 : Board n) := fun i j hne => absurd rfl hne
  have hmove : ∀ (d : Direction) (b : Board n) (k : Nat) (four : Bool),
      Inv b → Inv (move d b k four).1 := by
    intro d b k four h
    cases d with
    | left => exact inv_move_left k four h
    | right => exact inv_reverse (inv_move_left k four (inv_reverse h))
    | up => exact inv_transpose (inv_move_left k four (inv_transpose h))
    | down =>
      exact inv_transpose (inv_reverse (inv_move_left k four (inv_reverse (inv_transpose h))))
  exact ⟨fun k1 f1 k2 f2 => inv_add_new_tile k2 f2 (inv_add_new_tile k1 f1 hzero),
    fun b k four h => inv_add_new_tile k four h,
    fun b h => inv_compress h, fun b h => inv_merge h,
    fun b h => inv_reverse h, fun b h => inv_transpose h, hmove⟩

/-- Witness for C7: the invariant instantiated on the all-twos board, with the
hypothesis discharged explicitly, flows through compress and a full move. -/
theorem c7_power_of_two_invariant_witness :
    Inv (compress twosBoard).1 ∧ Inv (move .left twosBoard 0 false).1 :=
  ⟨(c7_power_of_two_invariant 4).2.2.1 twosBoard (fun _ _ _ => ⟨1, le_refl 1, rfl⟩),
   (c7_power_of_two_invariant 4).2.2.2.2.2.2 .left twosBoard 0 false
     (fun _ _ _ => ⟨1, le_refl 1, rfl⟩)⟩

/-- C9: the tile spawn either is a no-op when no empty cell exists, or mutates
exactly one cell: one currently empty cell receives the drawn value (4 on the
`four` draw, else 2) and every other cell is left unchanged. -/
theorem c9_spawn_frame (b : Board n) (k : Nat) (four : Bool) :
    (emptyCells b = [] → add_new_tile b k four = b) ∧
    (emptyCells b ≠ [] →
      SpawnDiff b (add_new_tile b k four) (if four then 4 else 2)) :=
  ⟨fun h => add_new_tile_nil b k four h, fun h => add_new_tile_spawn b k four h⟩

/-- Witness for C9: the no-op branch on a full board and the one-cell spawn on
a near-empty board. -/
theorem c9_spawn_frame_witness :
    add_new_tile checkerBoard 0 false = checkerBoard ∧
    SpawnDiff loneTileBoard (add_new_tile loneTileBoard 0 false) 2 :=
  ⟨(c9_spawn_frame checkerBoard 0 false).1 (by decide),
   (c9_spawn_frame loneTileBoard 0 false).2 (by decide)⟩

/-- Counting: a spawn on a board with an empty cell adds exactly one tile. -/
theorem nonzeroCount_add_new_tile {b : Board n} (k : Nat) (four : Bool)
    (h : emptyCells b ≠ []) :
    nonzeroCount (add_new_tile b k four) = nonzeroCount b + 1 := by
  rcases add_new_tile_spawn b k four h with ⟨c, h0, hv, hf⟩
  have hset : (Finset.univ.filter fun d : Fin n × Fin n => (add_new_tile b k four) d.1 d.2 ≠ 0)
      = insert c (Finset.univ.filter fun d : Fin n × Fin n => b d.1 d.2 ≠ 0) := by
    ext d
    simp only [Finset.mem_filter, Finset.mem_insert, Finset.mem_univ, true_and]
    constructor
    · intro hd
      by_cases hdc : d = c
      · exact Or.inl hdc
      · exact Or.inr (by rw [← hf d hdc]; exact hd)
    · intro hd
      rcases hd with rfl | hd
      · rw [hv]
        cases four <;> simp
      · by_cases hdc : d = c
        · subst hdc
          rw [hv]
          cases four <;> simp
        · rw [hf d hdc]
          exact hd
  have hcnot : c ∉ (Finset.univ.filter fun d : Fin n × Fin n => b d.1 d.2 ≠ 0) := by
    simp [Finset.mem_filter, h0]
  rw [nonzeroCount, hset, Finset.card_insert_of_not_mem hcnot, nonzeroCount]

/-- The zero board has no tiles. -/
theorem nonzeroCount_zero_board : nonzeroCount (fun _ _ => 0 : Board n) = 0 := by
  simp [nonzeroCount]

/-- Counterexample to C8 as stated: constructing a board of size 1 (or 0) does
not fail -- the constructor catches every exception and completes -- and it
spawns fewer than two tiles: one on the single-cell grid, none on the empty
grid (the second spawn hits the no-empty-cell no-op branch). -/
theorem c8_counterexample_small_sizes :
    nonzeroCount (init 1 0 false 0 false) = 1 ∧
      nonzeroCount (init 0 0 false 0 false) = 0 :=
  ⟨by decide, by decide⟩

/-- C8 (amended): construction allocates a zero grid and attempts two tile
spawns; it completes for every size (no failure is ever signalled), and for
every size of at least 2 it spawns exactly two tiles. -/
theorem c8_construction_two_tiles (n : Nat) (k1 : Nat) (f1 : Bool) (k2 : Nat)
    (f2 : Bool) (h : 2 ≤ n) : nonzeroCount (init n k1 f1 k2 f2) = 2 := by
  have hn : 0 < n := by omega
  have h1 : 1 < n := h
  have hz0 : emptyCells (fun _ _ => 0 : Board n) ≠ [] :=
    emptyCells_ne_nil _ ⟨0, hn⟩ ⟨0, hn⟩ rfl
  rcases add_new_tile_spawn (fun _ _ => 0 : Board n) k1 f1 hz0 with ⟨c, -, -, hf⟩
  have hex : ∃ d : Fin n × Fin n, d ≠ c ∧ (fun _ _ => 0 : Board n) d.1 d.2 = 0 := by
    by_cases hca : c = ((⟨0, hn⟩ : Fin n), (⟨0, hn⟩ : Fin n))
    · refine ⟨(⟨0, hn⟩, ⟨1, h1⟩), ?_, rfl⟩
      rw [hca]
      intro hq
      have hsnd := congrArg Prod.snd hq
      simp [Fin.ext_iff] at hsnd
    · exact ⟨(⟨0, hn⟩, ⟨0, hn⟩), fun hq => hca hq.symm, rfl⟩
  rcases hex with ⟨d, hdc, -⟩
  have hempty1 : emptyCells (add_new_tile (fun _ _ => 0 : Board n) k1 f1) ≠ [] := by
    apply emptyCells_ne_nil _ d.1 d.2
    rw [hf d hdc]
  show nonzeroCount (add_new_tile (add_new_tile (fun _ _ => 0) k1 f1) k2 f2) = 2
  rw [nonzeroCount_add_new_tile k2 f2 hempty1, nonzeroCount_add_new_tile k1 f1 hz0,
    nonzeroCount_zero_board]

/-- Witness for C8 (amended) at the default size 4. -/
theorem c8_construction_two_tiles_witness :
    nonzeroCount (init 4 0 false 0 false) = 2 :=
  c8_construction_two_tiles 4 0 false 0 false (by decide)

/-- C1: the merge operation is single-pass with no cascading merges within one
move: the merge loop computes exactly the left-to-right scan that doubles the
left cell of an adjacent equal non-zero pair, zeroes the right cell, and never
merges the freshly doubled cell with its next neighbour in the same pass; in
particular each row `[2, 2, 2, 2]` of the all-twos board becomes `[4, 4, 0, 0]`
after a left move, not `[8, 0, 0, 0]`. -/
theorem c1_merge_single_pass_no_cascade :
    (∀ r : List Nat, (mergeRow r).1 = singlePassMerge r) ∧
    (move_left_ns twosBoard).1 = fourFourBoard ∧
    (move_left_ns twosBoard).1 ≠ eightBoard := by
  refine ⟨fun r => ?_, by decide, by decide⟩
  cases r with
  | nil => rfl
  | cons x xs => exact mergeGo_eq_singlePass xs x

/-- The scanned adjacent pairs are exactly the pairs `(j, j + 1)`. -/
theorem mem_adjPairs_iff (p : Fin n × Fin n) :
    p ∈ adjPairs n ↔ (p.2 : Nat) = (p.1 : Nat) + 1 := by
  constructor
  · intro hp
    rcases List.mem_filterMap.mp hp with ⟨j, _, hj⟩
    by_cases h : (j : Nat) + 1 < n
    · rw [dif_pos h] at hj
      have hjp := Option.some.inj hj
      subst hjp
      rfl
    · rw [dif_neg h] at hj
      cases hj
  · intro hval
    refine List.mem_filterMap.mpr ⟨p.1, List.mem_finRange _, ?_⟩
    have h : (p.1 : Nat) + 1 < n := by rw [← hval]; exact p.2.isLt
    have h2 : (⟨(p.1 : Nat) + 1, h⟩ : Fin n) = p.2 := Fin.ext hval.symm
    rw [dif_pos h, h2]

/-- The empty-cell scan of `check_game_over` finds a zero iff one exists. -/
theorem anyZero_iff (b : Board n) :
    (((allCells n).any fun c => decide (b c.1 c.2 = 0)) = true) ↔
      ∃ i j : Fin n, b i j = 0 := by
  rw [List.any_eq_true]
  constructor
  · rintro ⟨c, -, hc⟩
    exact ⟨c.1, c.2, of_decide_eq_true hc⟩
  · rintro ⟨i, j, hij⟩
    exact ⟨(i, j), mem_allCells _, decide_eq_true hij⟩

/-- The adjacency scan of `check_game_over` fires iff some row-adjacent or
column-adjacent pair of cells holds equal values. -/
theorem anyAdj_iff (b : Board n) :
    (((List.finRange n).any fun i => (adjPairs n).any fun p =>
        decide (b i p.1 = b i p.2) || decide (b p.1 i = b p.2 i)) = true) ↔
      ∃ i j k : Fin n, (k : Nat) = (j : Nat) + 1 ∧ (b i j = b i k ∨ b j i = b k i) := by
  rw [List.any_eq_true]
  constructor
  · rintro ⟨i, -, hi⟩
    rcases List.any_eq_true.mp hi with ⟨p, hp, hcond⟩
    simp only [Bool.or_eq_true, decide_eq_true_eq] at hcond
    exact ⟨i, p.1, p.2, (mem_adjPairs_iff p).mp hp, hcond⟩
  · rintro ⟨i, j, k, hk, hor⟩
    refine ⟨i, List.mem_finRange _, List.any_eq_true.mpr ⟨(j, k), (mem_adjPairs_iff _).mpr hk, ?_⟩⟩
    simp only [Bool.or_eq_true, decide_eq_true_eq]
    exact hor

/-- C2: on every square board, `check_game_over` returns true iff no cell is
empty and no two horizontally or vertically adjacent cells are equal; on the
square grid the column scan that reuses the row loop variable covers exactly
the column-adjacent pairs. -/
theorem c2_game_over_iff (b : Board n) :
    (check_game_over b).1 = true ↔
      (∀ i j : Fin n, b i j ≠ 0) ∧
      (∀ i j k : Fin n, (k : Nat) = (j : Nat) + 1 →
        b i j ≠ b i k ∧ b j i ≠ b k i) := by
  rw [check_game_over]
  by_cases h1 : ((allCells n).any fun c => decide (b c.1 c.2 = 0)) = true
  · rw [if_pos h1]
    rcases (anyZero_iff b).mp h1 with ⟨i, j, hij⟩
    constructor
    · intro h
      exact (Bool.false_ne_true h).elim
    · rintro ⟨hne, -⟩
      exact (hne i j hij).elim
  · rw [if_neg h1]
    by_cases h2 : ((List.finRange n).any fun i => (adjPairs n).any fun p =>
        decide (b i p.1 = b i p.2) || decide (b p.1 i = b p.2 i)) = true
    · rw [if_pos h2]
      rcases (anyAdj_iff b).mp h2 with ⟨i, j, k, hk, hor⟩
      constructor
      · intro h
        exact (Bool.false_ne_true h).elim
      · rintro ⟨-, hadj⟩
        rcases hadj i j k hk with ⟨hr, hc⟩
        rcases hor with h | h
        · exact (hr h).elim
        · exact (hc h).elim
    · rw [if_neg h2]
      constructor
      · intro _
        refine ⟨fun i j hij => h1 ((anyZero_iff b).mpr ⟨i, j, hij⟩), fun i j k hk => ?_⟩
        constructor
        · intro he
          exact h2 ((anyAdj_iff b).mpr ⟨i, j, k, hk, Or.inl he⟩)
        · intro he
          exact h2 ((anyAdj_iff b).mpr ⟨i, j, k, hk, Or.inr he⟩)
      · intro _
        rfl

/-- C10: `check_game_over` is a read-only observer: the board it returns along
every exit path is the board it was given, cell for cell. -/
theorem c10_check_game_over_pure (b : Board n) : (check_game_over b).2 = b := by
  rw [check_game_over]
  split
  · rfl
  · split
    · rfl
    · rfl

/-- C3: for every direction, the changed flag returned by `move` is the or of
the first compress's flag and the merge's flag on the correspondingly oriented
board; the second compress contributes nothing to the returned flag. -/
theorem c3_changed_flag (d : Direction) (b : Board n) (k : Nat) (four : Bool) :
    (move d b k four).2 =
      ((compress (orient d b)).2 || (merge (compress (orient d b)).1).2) := by
  cases d <;> rfl

end G2048
